import Mathlib

/-!
Verification of the duplicate-file scanner (photo.py, sqlite_storage.py,
csv_storage.py, app.py, storage_base.py).

The Python code is shallowly embedded as pure Lean functions:

* the filesystem is a pair of functions (`stat`, `readFile`); a `none`
  result models the corresponding OS call raising an exception;
* Python dicts holding file metadata become the `FileRecord` structure;
  a record's `sha256` field is an `Option String`, `none` modelling the
  dictionary key being absent;
* the SQLite tables and the CSV files are modelled as the row lists a
  full-table `SELECT` (respectively a `DictReader` pass) would return,
  in rowid/file order;
* SHA-256 itself is abstracted by a parameter `hb : List Nat → String`
  mapping the file's byte content to its hex digest: chunked reading of
  the whole file is content-equivalent to hashing the byte list, and no
  claim depends on properties of the hash function;
* `process_single_file_with_cache` additionally returns a `Bool`
  recording whether `calculate_sha256` was invoked, which is the only
  instrumentation added to the source logic.
-/

/-- Result of `os.stat`: the byte size and the formatted creation-time
string (the code formats `st_ctime` with `strftime`; the formatted
string is modelled directly). -/
structure StatInfo where
  st_size : Nat
  ctime_str : String
deriving DecidableEq

/-- The filesystem as seen by one scan.  `stat p = none` models
`os.stat` raising; `readFile p = none` models any I/O error while
opening/reading the file in `calculate_sha256`. -/
structure FSModel where
  stat : String → Option StatInfo
  readFile : String → Option (List Nat)

/-- One file-metadata dictionary, as built by
`process_single_file_with_cache` and stored in the `files` table /
`file_list.csv`.  `sha256 = none` models the `'sha256'` key being
absent from the dict. -/
structure FileRecord where
  filename : String
  filepath : String
  creation_time : String
  file_size : Nat
  sha256 : Option String
deriving DecidableEq

/-- One row of the `duplicates` SQLite table, equally one data row of
`duplicate_files.csv` (same six columns). -/
structure DupRow where
  sha256 : String
  filename : String
  filepath : String
  creation_time : String
  file_size : Nat
  duplicate_count : Nat
deriving DecidableEq

/-- One row dict produced by `get_duplicate_groups` (both backends
select/read the five columns below, without `duplicate_count`). -/
structure DupEntry where
  sha256 : String
  filename : String
  filepath : String
  creation_time : String
  file_size : Nat
deriving DecidableEq

/-- Persistent state of a storage backend: the `files` table rows and
the `duplicates` table rows (in insertion order, as an unordered
`SELECT` returns them). -/
structure StorageState where
  files : List FileRecord
  duplicates : List DupRow
deriving DecidableEq

/-- Python truthiness of the optional `sha256` value: `None`, an absent
key and the empty string are falsy. -/
def optTruthy : Option String → Bool
  | some s => !(s == "")
  | none => false

/-- `os.path.basename` for the POSIX separator: the suffix of the path
after its last `'/'`. -/
def basename (p : String) : String :=
  String.mk
    (p.data.foldl (fun acc c => if c = '/' then [] else acc ++ [c]) [])

/-- `calculate_sha256` (photo.py): read the file and hash its content;
any error while reading yields `None` instead of raising.  `hb`
abstracts `hashlib.sha256(...).hexdigest()` on the full byte content. -/
def calculate_sha256 (hb : List Nat → String)
    (readFile : String → Option (List Nat)) (file_path : String) :
    Option String :=
  match readFile file_path with
  | some bytes => some (hb bytes)
  | none => none

/-- The fall-through branch of `process_single_file_with_cache`
(cache miss, or cached entry without a usable digest): invoke
`calculate_sha256` and build a fresh record when it yields a truthy
digest, otherwise produce `None`. -/
def hashNowResult (hb : List Nat → String) (fs : FSModel)
    (file_path : String) (stat_info : StatInfo) :
    Option FileRecord × Bool :=
  let sha256 := calculate_sha256 hb fs.readFile file_path
  if optTruthy sha256 then
    (some { filename := basename file_path, filepath := file_path,
            creation_time := stat_info.ctime_str,
            file_size := stat_info.st_size, sha256 := sha256 }, true)
  else (none, true)

/-- `process_single_file_with_cache` (photo.py).  `file_info` is the
`(file_path, root)` tuple (the root component is unused by the source
body).  The second component of the result records whether
`calculate_sha256` was invoked (instrumentation only). -/
def process_single_file_with_cache (hb : List Nat → String) (fs : FSModel)
    (file_info : String × String)
    (file_cache : String × Nat → Option FileRecord) :
    Option FileRecord × Bool :=
  let file_path := file_info.1
  match fs.stat file_path with
  | none => (none, false)
  | some stat_info =>
    let cache_key : String × Nat := (file_path, stat_info.st_size)
    match file_cache cache_key with
    | some cached_entry =>
      if optTruthy cached_entry.sha256 then (some cached_entry, false)
      else hashNowResult hb fs file_path stat_info
    | none => hashNowResult hb fs file_path stat_info

/-- `load_existing_file_cache` (photo.py / sqlite_storage.py /
csv_storage.py): build the `(filepath, file_size) ↦ record` dict from
the persisted file rows; iterating in row order, a later row with the
same key overwrites an earlier one. -/
def load_existing_file_cache (rows : List FileRecord) :
    String × Nat → Option FileRecord :=
  fun key =>
    (rows.filter
      (fun r => r.filepath == key.1 && r.file_size == key.2)).getLast?

/-- Append `x` to the entry of key `k` of an insertion-ordered
association list, creating the entry at the end if the key is new.
This is how `defaultdict(list)` / `dict` accumulation behaves in
`find_duplicates` and in the CSV refresh. -/
def alistAppend {α : Type} (gs : List (String × List α)) (k : String)
    (x : α) : List (String × List α) :=
  match gs with
  | [] => [(k, [x])]
  | g :: rest =>
    if g.1 = k then (g.1, g.2 ++ [x]) :: rest
    else g :: alistAppend rest k x

/-- Group a list by a string key, keys in first-appearance order,
members in traversal order (Python dict-of-lists accumulation). -/
def groupByKey {α : Type} (key : α → String) (l : List α) :
    List (String × List α) :=
  l.foldl (fun gs x => alistAppend gs (key x) x) []

/-- `find_duplicates` (photo.py): group records by their `'sha256'`
value, skipping entries that are `None` or lack the key, then keep only
groups with more than one file. -/
def find_duplicates (file_data_list : List (Option FileRecord)) :
    List (String × List FileRecord) :=
  let sha256_groups := file_data_list.foldl
    (fun gs file_data =>
      match file_data with
      | some r =>
        match r.sha256 with
        | some d => alistAppend gs d r
        | none => gs
      | none => gs) []
  sha256_groups.filter (fun g => decide (1 < g.2.length))

/-- `save_files` / `save_files_to_db`: `DELETE FROM files`, then insert
each non-`None` record with `INSERT OR REPLACE` (`filepath` is UNIQUE,
so a conflicting row is deleted and the new row appended). -/
def save_files (file_data_list : List (Option FileRecord)) :
    List FileRecord :=
  file_data_list.foldl
    (fun rows file_data =>
      match file_data with
      | some r =>
        rows.filter (fun x => !(x.filepath == r.filepath)) ++ [r]
      | none => rows) []

/-- `save_duplicates` / `save_duplicates_to_db`: `DELETE FROM
duplicates`, then insert one row per member of each group, with
`duplicate_count` equal to the group size. -/
def save_duplicates (duplicates : List (String × List FileRecord)) :
    List DupRow :=
  duplicates.foldl
    (fun rows g =>
      rows ++ g.2.map (fun file_data =>
        { sha256 := g.1, filename := file_data.filename,
          filepath := file_data.filepath,
          creation_time := file_data.creation_time,
          file_size := file_data.file_size,
          duplicate_count := g.2.length }))
    []

/-- `SELECT DISTINCT sha256 FROM duplicates`, in first-appearance
order. -/
def distinctShas (rows : List DupRow) : List String :=
  rows.foldl
    (fun acc r => if r.sha256 ∈ acc then acc else acc ++ [r.sha256]) []

/-- The filepaths of the rows sharing the digest `d`
(`SELECT filepath FROM duplicates WHERE sha256 = ?`). -/
def sqlGroupFilepaths (rows : List DupRow) (d : String) : List String :=
  (rows.filter (fun r => r.sha256 == d)).map (fun r => r.filepath)

/-- `SQLiteStorage.refresh_duplicates`: for each distinct digest check
that every member path exists (`all_files_exist`, with early break);
then delete every row of each digest that is not valid.  `ex` models
`os.path.exists`. -/
def sqliteRefreshDuplicates (ex : String → Bool) (rows : List DupRow) :
    List DupRow :=
  let sha256_list := distinctShas rows
  let valid_sha256 :=
    sha256_list.filter (fun d => (sqlGroupFilepaths rows d).all ex)
  sha256_list.foldl
    (fun tbl d =>
      if d ∈ valid_sha256 then tbl
      else tbl.filter (fun r => !(r.sha256 == d)))
    rows

/-- `CSVStorage.refresh_duplicates`: group the CSV rows by sha256
(insertion-ordered dict), keep (`extend`) the entries of each group
whose files all exist, and write exactly those back. -/
def csvRefreshDuplicates (ex : String → Bool) (rows : List DupRow) :
    List DupRow :=
  let existing_files_by_sha256 := groupByKey (fun r => r.sha256) rows
  existing_files_by_sha256.foldl
    (fun valid_entries g =>
      if (g.2.map (fun entry => entry.filepath)).all ex then
        valid_entries ++ g.2
      else valid_entries)
    []

/-- Project a duplicates row to the five-column dict built by
`get_duplicate_groups`. -/
def toEntry (r : DupRow) : DupEntry :=
  { sha256 := r.sha256, filename := r.filename, filepath := r.filepath,
    creation_time := r.creation_time, file_size := r.file_size }

/-- The grouping loop shared by both `get_duplicate_groups` bodies:
walk the rows, starting a new group whenever the sha256 differs from
the previous row's; returns the pushed groups and the trailing
`current_group` (appended by the caller if nonempty). -/
def group_rows_loop :
    List DupRow → List (List DupEntry) → List DupEntry → Option String →
    List (List DupEntry) × List DupEntry
  | [], groups, current_group, _ => (groups, current_group)
  | row :: rest, groups, current_group, prev_sha256 =>
    if some row.sha256 ≠ prev_sha256 ∧ current_group ≠ [] then
      group_rows_loop rest (groups ++ [current_group]) [toEntry row]
        (some row.sha256)
    else
      group_rows_loop rest groups (current_group ++ [toEntry row])
        (some row.sha256)

/-- `SQLiteStorage.get_duplicate_groups`: `SELECT ... ORDER BY sha256`
then group consecutive rows with equal sha256. -/
def sqliteGetDuplicateGroups (rows : List DupRow) :
    List (List DupEntry) :=
  let sorted :=
    List.insertionSort (fun a b => a.sha256 ≤ b.sha256) rows
  let res := group_rows_loop sorted [] [] none
  if res.2 ≠ [] then res.1 ++ [res.2] else res.1

/-- `CSVStorage.get_duplicate_groups`: same grouping over the CSV rows
in file order, with an optional group `limit` (break once
`len(groups) >= limit` right after pushing a group; the trailing group
is appended only when the limit has not been reached). -/
def csv_group_loop (limit : Option Nat) :
    List DupRow → List (List DupEntry) → List DupEntry → Option String →
    List (List DupEntry) × List DupEntry
  | [], groups, current_group, _ => (groups, current_group)
  | row :: rest, groups, current_group, prev_sha256 =>
    if some row.sha256 ≠ prev_sha256 ∧ current_group ≠ [] then
      match limit with
      | some l =>
        if l ≤ (groups ++ [current_group]).length then
          (groups ++ [current_group], current_group)
        else
          csv_group_loop limit rest (groups ++ [current_group])
            [toEntry row] (some row.sha256)
      | none =>
        csv_group_loop limit rest (groups ++ [current_group])
          [toEntry row] (some row.sha256)
    else
      csv_group_loop limit rest groups (current_group ++ [toEntry row])
        (some row.sha256)

/-- `CSVStorage.get_duplicate_groups` over the persisted CSV data
rows. -/
def csvGetDuplicateGroups (rows : List DupRow) (limit : Option Nat) :
    List (List DupEntry) :=
  let res := csv_group_loop limit rows [] [] none
  if res.2 ≠ [] ∧ (limit = none ∨ res.1.length < limit.getD 0) then
    res.1 ++ [res.2]
  else res.1

/-- Remove consecutive equal elements (used to state the digest order
of the grouped output). -/
def dedupConsec : List String → List String
  | [] => []
  | a :: rest =>
    match rest with
    | [] => [a]
    | b :: _ => if a = b then dedupConsec rest else a :: dedupConsec rest

/-- The digest a returned group is keyed by: the sha256 of its first
member. -/
def groupDigest (g : List DupEntry) : String :=
  ((g.head?).map (fun e => e.sha256)).getD ""

/-- The `pagination` object of the `/duplicates` response. -/
structure PaginationInfo where
  page : Int
  per_page : Nat
  total_groups : Nat
  total_pages : Nat
  has_more : Bool
deriving DecidableEq

/-- `get_duplicates` (app.py): clamp `page` to at least 1, slice the
full group list `[start:start+20]` (after clamping the start index is
nonnegative, so the Python slice is drop-then-take), and build the
pagination object. -/
def get_duplicates_route (all_groups : List (List DupEntry))
    (pageArg : Int) : List (List DupEntry) × PaginationInfo :=
  let page : Int := if pageArg < 1 then 1 else pageArg
  let per_page : Nat := 20
  let total_groups := all_groups.length
  let total_pages : Nat :=
    if 0 < total_groups then (total_groups + per_page - 1) / per_page
    else 1
  let start_index : Int := (page - 1) * (per_page : Int)
  let groups := (all_groups.drop start_index.toNat).take per_page
  (groups,
   { page := page, per_page := per_page, total_groups := total_groups,
     total_pages := total_pages,
     has_more := decide (page < (total_pages : Int)) })

/-- `process_multiple_directories` (photo.py), from the collected
`(file_path, root)` list onwards: load the cache, return early with no
writes when there are no files, otherwise process every file (the
parallel pool is modelled sequentially; grouping and saving are
order-independent), save the records (full overwrite), compute the
duplicate groups and save them — but only when at least one group was
found.  Returns the new storage state and `file_results`. -/
def process_multiple_directories (hb : List Nat → String) (fs : FSModel)
    (files_to_process : List (String × String)) (s : StorageState) :
    StorageState × List FileRecord :=
  let file_cache := load_existing_file_cache s.files
  if files_to_process.length = 0 then (s, [])
  else
    let file_results := files_to_process.filterMap
      (fun file_info =>
        (process_single_file_with_cache hb fs file_info file_cache).1)
    let s1 : StorageState :=
      { s with files := save_files (file_results.map some) }
    let duplicates := find_duplicates (file_results.map some)
    if duplicates.isEmpty then (s1, file_results)
    else ({ s1 with duplicates := save_duplicates duplicates },
          file_results)

/-! ### Grouping association-list lemmas -/

/-- The entry of key `k` in a grouped association list (`[]` if the key
is absent). -/
def lookupG {α : Type} (gs : List (String × List α)) (k : String) :
    List α :=
  match gs.find? (fun g => g.1 == k) with
  | some g => g.2
  | none => []

theorem lookupG_cons_self {α : Type} (g : String × List α)
    (rest : List (String × List α)) (k : String) (h : g.1 = k) :
    lookupG (g :: rest) k = g.2 := by
  have hb : (g.1 == k) = true := by simp [h]
  simp [lookupG, List.find?, hb]

theorem lookupG_cons_of_ne {α : Type} (g : String × List α)
    (rest : List (String × List α)) (k : String) (h : g.1 ≠ k) :
    lookupG (g :: rest) k = lookupG rest k := by
  have hb : (g.1 == k) = false := by simpa using h
  simp [lookupG, List.find?, hb]

theorem lookupG_nil {α : Type} (k : String) :
    lookupG ([] : List (String × List α)) k = [] := rfl

theorem lookupG_alistAppend {α : Type} (gs : List (String × List α))
    (k0 k : String) (x : α) :
    lookupG (alistAppend gs k0 x) k =
      if k = k0 then lookupG gs k ++ [x] else lookupG gs k := by
  induction gs with
  | nil =>
    by_cases h : k = k0
    · subst h
      rw [if_pos rfl]
      simp only [alistAppend]
      rw [lookupG_cons_self (k, [x]) [] k rfl, lookupG_nil]
      rfl
    · rw [if_neg h]
      simp only [alistAppend]
      rw [lookupG_cons_of_ne (k0, [x]) [] k (fun he => h he.symm)]
  | cons g rest ih =>
    by_cases hg : g.1 = k0
    · simp only [alistAppend, if_pos hg]
      by_cases hk : g.1 = k
      · have h1 : lookupG ((g.1, g.2 ++ [x]) :: rest) k = g.2 ++ [x] :=
          lookupG_cons_self (g.1, g.2 ++ [x]) rest k hk
        have h2 : lookupG (g :: rest) k = g.2 :=
          lookupG_cons_self g rest k hk
        rw [h1, if_pos (hk.symm.trans hg), h2]
      · have h1 : lookupG ((g.1, g.2 ++ [x]) :: rest) k = lookupG rest k :=
          lookupG_cons_of_ne (g.1, g.2 ++ [x]) rest k hk
        have h2 : lookupG (g :: rest) k = lookupG rest k :=
          lookupG_cons_of_ne g rest k hk
        rw [h1, if_neg (fun he : k = k0 => hk (hg.trans he.symm)), h2]
    · simp only [alistAppend, if_neg hg]
      by_cases hk : g.1 = k
      · have h1 : lookupG (g :: alistAppend rest k0 x) k = g.2 :=
          lookupG_cons_self g (alistAppend rest k0 x) k hk
        have h2 : lookupG (g :: rest) k = g.2 :=
          lookupG_cons_self g rest k hk
        rw [h1, if_neg (fun he : k = k0 => hg (hk.trans he)), h2]
      · have h1 : lookupG (g :: alistAppend rest k0 x) k
            = lookupG (alistAppend rest k0 x) k :=
          lookupG_cons_of_ne g (alistAppend rest k0 x) k hk
        have h2 : lookupG (g :: rest) k = lookupG rest k :=
          lookupG_cons_of_ne g rest k hk
        rw [h1, ih, h2]

theorem keys_alistAppend {α : Type} (gs : List (String × List α))
    (k0 : String) (x : α) :
    (alistAppend gs k0 x).map Prod.fst =
      if k0 ∈ gs.map Prod.fst then gs.map Prod.fst
      else gs.map Prod.fst ++ [k0] := by
  induction gs with
  | nil => simp [alistAppend]
  | cons g rest ih =>
    by_cases hg : g.1 = k0
    · simp [alistAppend, hg]
    · simp only [alistAppend, if_neg hg, List.map_cons, ih,
        List.mem_cons]
      by_cases hm : k0 ∈ rest.map Prod.fst
      · rw [if_pos hm, if_pos (Or.inr hm)]
      · rw [if_neg hm, if_neg (by
          intro hor
          rcases hor with he | he
          · exact hg he.symm
          · exact hm he)]
        simp

theorem keys_nodup_alistAppend {α : Type}
    {gs : List (String × List α)} (h : (gs.map Prod.fst).Nodup)
    (k0 : String) (x : α) :
    ((alistAppend gs k0 x).map Prod.fst).Nodup := by
  rw [keys_alistAppend]
  by_cases hm : k0 ∈ gs.map Prod.fst
  · simpa [hm] using h
  · rw [if_neg hm]
    simp [List.nodup_append, h, hm]

theorem snd_ne_nil_alistAppend {α : Type}
    {gs : List (String × List α)}
    (h : ∀ g ∈ gs, g.2 ≠ ([] : List α)) (k0 : String) (x : α) :
    ∀ g ∈ alistAppend gs k0 x, g.2 ≠ [] := by
  induction gs with
  | nil =>
    intro g hm
    simp only [alistAppend, List.mem_singleton] at hm
    subst hm
    simp
  | cons p rest ih =>
    intro g hm
    by_cases hp : p.1 = k0
    · simp only [alistAppend, if_pos hp, List.mem_cons] at hm
      rcases hm with hm | hm
      · subst hm; simp
      · exact h g (List.mem_cons_of_mem _ hm)
    · simp only [alistAppend, if_neg hp, List.mem_cons] at hm
      rcases hm with hm | hm
      · subst hm; exact h g (List.mem_cons_self _ _)
      · exact ih (fun q hq => h q (List.mem_cons_of_mem _ hq)) g hm

theorem find?_eq_of_mem_of_nodup {α : Type}
    {gs : List (String × List α)} (h : (gs.map Prod.fst).Nodup)
    {k : String} {g : List α} (hm : (k, g) ∈ gs) :
    gs.find? (fun p => p.1 == k) = some (k, g) := by
  induction gs with
  | nil => cases hm
  | cons p rest ih =>
    rcases List.mem_cons.mp hm with h1 | h1
    · rw [← h1]
      exact List.find?_cons_of_pos _ (by simp)
    · have hk : k ∈ rest.map Prod.fst :=
        List.mem_map.mpr ⟨(k, g), h1, rfl⟩
      have hp : p.1 ≠ k := by
        intro he
        exact (List.nodup_cons.mp (by simpa using h)).1 (he ▸ hk)
      rw [List.find?_cons_of_neg _ (by simpa using hp)]
      exact ih (List.nodup_cons.mp (by simpa using h)).2 h1

theorem lookupG_eq_of_mem_of_nodup {α : Type}
    {gs : List (String × List α)} (h : (gs.map Prod.fst).Nodup)
    {k : String} {g : List α} (hm : (k, g) ∈ gs) :
    lookupG gs k = g := by
  rw [lookupG, find?_eq_of_mem_of_nodup h hm]

theorem mem_of_lookupG_ne_nil {α : Type}
    {gs : List (String × List α)} {k : String}
    (h : lookupG gs k ≠ []) : (k, lookupG gs k) ∈ gs := by
  rw [lookupG] at *
  cases hf : gs.find? (fun p => p.1 == k) with
  | none => simp [hf] at h
  | some p =>
    have hmem := List.mem_of_find?_eq_some hf
    have hpk : p.1 = k := by simpa using List.find?_some hf
    simp only [hf]
    have : p = (k, p.2) := by
      cases p; simp_all
    rw [← this]; exact hmem

theorem foldl_alistAppend_lookup {α : Type} (key : α → String)
    (l : List α) :
    ∀ (gs : List (String × List α)) (k : String),
      lookupG (l.foldl (fun gs x => alistAppend gs (key x) x) gs) k
        = lookupG gs k ++ l.filter (fun x => key x == k) := by
  induction l with
  | nil => intro gs k; simp
  | cons x l ih =>
    intro gs k
    rw [List.foldl_cons, ih, lookupG_alistAppend, List.filter_cons]
    by_cases h : k = key x
    · rw [if_pos h]
      have hb : (key x == k) = true := by simp [h]
      simp [hb, List.append_assoc]
    · rw [if_neg h]
      have hb : (key x == k) = false := by
        simpa using fun he => h he.symm
      simp [hb]

theorem foldl_keys_nodup {α : Type} (key : α → String) (l : List α) :
    ∀ gs : List (String × List α), (gs.map Prod.fst).Nodup →
      (((l.foldl (fun gs x => alistAppend gs (key x) x) gs)).map
          Prod.fst).Nodup := by
  induction l with
  | nil => intro gs h; simpa using h
  | cons x l ih =>
    intro gs h
    rw [List.foldl_cons]
    exact ih _ (keys_nodup_alistAppend h _ _)

theorem foldl_snd_ne_nil {α : Type} (key : α → String) (l : List α) :
    ∀ gs : List (String × List α), (∀ g ∈ gs, g.2 ≠ ([] : List α)) →
      ∀ g ∈ l.foldl (fun gs x => alistAppend gs (key x) x) gs,
        g.2 ≠ [] := by
  induction l with
  | nil => intro gs h; simpa using h
  | cons x l ih =>
    intro gs h
    rw [List.foldl_cons]
    exact ih _ (snd_ne_nil_alistAppend h _ _)

theorem lookupG_groupByKey {α : Type} (key : α → String) (l : List α)
    (k : String) :
    lookupG (groupByKey key l) k = l.filter (fun x => key x == k) := by
  have := foldl_alistAppend_lookup key l [] k
  simpa [groupByKey, lookupG_nil] using this

theorem groupByKey_keys_nodup {α : Type} (key : α → String)
    (l : List α) : ((groupByKey key l).map Prod.fst).Nodup :=
  foldl_keys_nodup key l [] (by simp)

theorem groupByKey_snd_ne_nil {α : Type} (key : α → String)
    (l : List α) : ∀ g ∈ groupByKey key l, g.2 ≠ [] :=
  foldl_snd_ne_nil key l [] (by simp)

theorem groupByKey_mem_iff {α : Type} (key : α → String) (l : List α)
    (k : String) (g : List α) :
    (k, g) ∈ groupByKey key l ↔
      (g = l.filter (fun x => key x == k) ∧ g ≠ []) := by
  constructor
  · intro hm
    have h1 : lookupG (groupByKey key l) k = g :=
      lookupG_eq_of_mem_of_nodup (groupByKey_keys_nodup key l) hm
    refine ⟨h1 ▸ lookupG_groupByKey key l k, ?_⟩
    have := groupByKey_snd_ne_nil key l _ hm
    simpa using this
  · rintro ⟨hg, hne⟩
    have h2 := lookupG_groupByKey key l k
    have h3 : lookupG (groupByKey key l) k ≠ [] := by
      rw [h2, ← hg]; exact hne
    have hmem := mem_of_lookupG_ne_nil h3
    rw [h2, ← hg] at hmem
    exact hmem

/-! ### find_duplicates: grouping correctness (C2) -/

/-- The digest a record is grouped under by `find_duplicates` (only
used for records whose `sha256` key is present). -/
def rdigest (r : FileRecord) : String := r.sha256.getD ""

/-- The records `find_duplicates` actually groups: entries that are not
`None` and carry the `'sha256'` key. -/
def cleanRecords (l : List (Option FileRecord)) : List FileRecord :=
  l.filterMap (fun file_data =>
    match file_data with
    | some r =>
      match r.sha256 with
      | some _ => some r
      | none => none
    | none => none)

/-- The non-`None` input records bearing the digest `d`, in input
order. -/
def digestRecords (d : String) (l : List (Option FileRecord)) :
    List FileRecord :=
  (l.filterMap id).filter (fun r => r.sha256 == some d)

theorem find_duplicates_fold (l : List (Option FileRecord)) :
    ∀ gs, l.foldl
        (fun gs file_data =>
          match file_data with
          | some r =>
            match r.sha256 with
            | some d => alistAppend gs d r
            | none => gs
          | none => gs) gs
      = (cleanRecords l).foldl
          (fun gs r => alistAppend gs (rdigest r) r) gs := by
  induction l with
  | nil => intro gs; simp [cleanRecords]
  | cons fd l ih =>
    intro gs
    cases fd with
    | none =>
      simp only [List.foldl_cons, cleanRecords, List.filterMap_cons]
      exact ih gs
    | some r =>
      cases hsha : r.sha256 with
      | none =>
        simp only [List.foldl_cons, cleanRecords, List.filterMap_cons,
          hsha]
        exact ih gs
      | some d =>
        simp only [List.foldl_cons, cleanRecords, List.filterMap_cons,
          hsha, List.foldl_cons]
        have hd : rdigest r = d := by simp [rdigest, hsha]
        rw [hd]
        exact ih _

theorem find_duplicates_eq_groupByKey (l : List (Option FileRecord)) :
    find_duplicates l =
      (groupByKey rdigest (cleanRecords l)).filter
        (fun g => decide (1 < g.2.length)) := by
  unfold find_duplicates groupByKey
  rw [find_duplicates_fold]

theorem cleanRecords_cons_none (l : List (Option FileRecord)) :
    cleanRecords (none :: l) = cleanRecords l := by
  simp [cleanRecords, List.filterMap_cons]

theorem cleanRecords_cons_skip {r : FileRecord} (h : r.sha256 = none)
    (l : List (Option FileRecord)) :
    cleanRecords (some r :: l) = cleanRecords l := by
  simp [cleanRecords, List.filterMap_cons, h]

theorem cleanRecords_cons_keep {r : FileRecord} {e : String}
    (h : r.sha256 = some e) (l : List (Option FileRecord)) :
    cleanRecords (some r :: l) = r :: cleanRecords l := by
  simp [cleanRecords, List.filterMap_cons, h]

theorem digestRecords_cons_none (d : String)
    (l : List (Option FileRecord)) :
    digestRecords d (none :: l) = digestRecords d l := by
  simp [digestRecords, List.filterMap_cons]

theorem digestRecords_cons_some (d : String) (r : FileRecord)
    (l : List (Option FileRecord)) :
    digestRecords d (some r :: l) =
      if r.sha256 == some d then r :: digestRecords d l
      else digestRecords d l := by
  simp only [digestRecords, List.filterMap_cons, id]
  rw [List.filter_cons]

theorem cleanRecords_filter (d : String) (l : List (Option FileRecord)) :
    (cleanRecords l).filter (fun x => rdigest x == d)
      = digestRecords d l := by
  induction l with
  | nil => rfl
  | cons fd l ih =>
    cases fd with
    | none => rw [cleanRecords_cons_none, digestRecords_cons_none, ih]
    | some r =>
      cases hsha : r.sha256 with
      | none =>
        rw [cleanRecords_cons_skip hsha, digestRecords_cons_some,
          if_neg (by simp [hsha]), ih]
      | some e =>
        rw [cleanRecords_cons_keep hsha, digestRecords_cons_some,
          List.filter_cons]
        by_cases he : e = d
        · rw [if_pos (by simp [rdigest, hsha, he]),
            if_pos (by simp [hsha, he]), ih]
        · rw [if_neg (by simp [rdigest, hsha, he]),
            if_neg (by simp [hsha, he]), ih]

/-- C2: for every list of file records, `find_duplicates` returns
exactly the set of digests occurring in 2 or more records, each mapped
to exactly the records bearing that digest (in input order); `None`
entries and records without a digest are excluded, and no group is
returned for a digest occurring exactly once. -/
theorem find_duplicates_groups_correct (l : List (Option FileRecord)) :
    ((find_duplicates l).map Prod.fst).Nodup ∧
    ∀ d g, ((d, g) ∈ find_duplicates l ↔
      (g = digestRecords d l ∧ 2 ≤ g.length)) := by
  rw [find_duplicates_eq_groupByKey]
  constructor
  · exact List.Nodup.sublist
      (List.Sublist.map Prod.fst (List.filter_sublist _))
      (groupByKey_keys_nodup rdigest (cleanRecords l))
  · intro d g
    rw [List.mem_filter]
    rw [groupByKey_mem_iff, cleanRecords_filter]
    constructor
    · rintro ⟨⟨hg, _⟩, hlen⟩
      exact ⟨hg, by simpa using hlen⟩
    · rintro ⟨hg, hlen⟩
      refine ⟨⟨hg, ?_⟩, by simpa using hlen⟩
      intro hnil
      rw [hnil] at hlen
      simp at hlen

/-- Witness for C2 at a concrete input: two records share digest `dd`,
one has digest `ee`, one entry is `None`, one record has no digest;
exactly the `dd` pair forms a group. -/
theorem find_duplicates_groups_correct_witness :
    ("dd", [⟨"a.jpg", "/t/a.jpg", "c1", 3, some "dd"⟩,
            ⟨"b.jpg", "/t/b.jpg", "c2", 3, some "dd"⟩]) ∈
      find_duplicates
        [some ⟨"a.jpg", "/t/a.jpg", "c1", 3, some "dd"⟩,
         some ⟨"b.jpg", "/t/b.jpg", "c2", 3, some "dd"⟩,
         some ⟨"c.jpg", "/t/c.jpg", "c3", 5, some "ee"⟩, none,
         some ⟨"n.jpg", "/t/n.jpg", "c4", 7, none⟩] :=
  ((find_duplicates_groups_correct _).2 "dd" _).mpr (by decide)

/-! ### Refresh reconciliation (C1, C10) -/

theorem distinctShas_mem (rows : List DupRow) :
    ∀ (acc : List String) (a : String),
      a ∈ rows.foldl
          (fun acc r =>
            if r.sha256 ∈ acc then acc else acc ++ [r.sha256]) acc ↔
        a ∈ acc ∨ ∃ r ∈ rows, r.sha256 = a := by
  induction rows with
  | nil => intro acc a; simp
  | cons r rows ih =>
    intro acc a
    rw [List.foldl_cons]
    by_cases hm : r.sha256 ∈ acc
    · rw [if_pos hm, ih]
      constructor
      · rintro (h | h)
        · exact Or.inl h
        · exact Or.inr (by
            rcases h with ⟨q, hq, he⟩
            exact ⟨q, List.mem_cons_of_mem _ hq, he⟩)
      · rintro (h | ⟨q, hq, he⟩)
        · exact Or.inl h
        · rcases List.mem_cons.mp hq with hq1 | hq1
          · subst hq1
            exact Or.inl (he ▸ hm)
          · exact Or.inr ⟨q, hq1, he⟩
    · rw [if_neg hm, ih]
      constructor
      · rintro (h | h)
        · rcases List.mem_append.mp h with h1 | h1
          · exact Or.inl h1
          · refine Or.inr ⟨r, List.mem_cons_self _ _, ?_⟩
            exact (List.mem_singleton.mp h1).symm
        · rcases h with ⟨q, hq, he⟩
          exact Or.inr ⟨q, List.mem_cons_of_mem _ hq, he⟩
      · rintro (h | ⟨q, hq, he⟩)
        · exact Or.inl (List.mem_append.mpr (Or.inl h))
        · rcases List.mem_cons.mp hq with hq1 | hq1
          · subst hq1
            exact Or.inl (List.mem_append.mpr (Or.inr (by simp [he])))
          · exact Or.inr ⟨q, hq1, he⟩

theorem mem_distinctShas {rows : List DupRow} {a : String} :
    a ∈ distinctShas rows ↔ ∃ r ∈ rows, r.sha256 = a := by
  rw [distinctShas, distinctShas_mem rows [] a]
  simp

theorem refresh_del_fold (valid : List String) :
    ∀ (ds : List String) (tbl : List DupRow),
      ds.foldl
        (fun tbl d =>
          if d ∈ valid then tbl
          else tbl.filter (fun r => !(r.sha256 == d))) tbl
      = tbl.filter
          (fun r => decide (r.sha256 ∈ ds → r.sha256 ∈ valid)) := by
  intro ds
  induction ds with
  | nil =>
    intro tbl
    rw [List.foldl_nil]
    have : ∀ r ∈ tbl,
        (decide (r.sha256 ∈ ([] : List String) → r.sha256 ∈ valid))
          = true := by
      intro r _
      simp
    rw [List.filter_eq_self.mpr this]
  | cons d ds ih =>
    intro tbl
    rw [List.foldl_cons]
    by_cases hd : d ∈ valid
    · rw [if_pos hd, ih]
      apply List.filter_congr
      intro r _
      simp only [decide_eq_decide]
      constructor
      · intro h hm
        rcases List.mem_cons.mp hm with h1 | h1
        · exact h1 ▸ hd
        · exact h h1
      · intro h hm
        exact h (List.mem_cons_of_mem _ hm)
    · rw [if_neg hd, ih, List.filter_filter]
      apply List.filter_congr
      intro r _
      by_cases hr : r.sha256 = d
      · have h1 : (r.sha256 == d) = true := by simp [hr]
        have h2 : (decide (r.sha256 ∈ d :: ds → r.sha256 ∈ valid))
            = false := by
          simp only [decide_eq_false_iff_not]
          intro h
          exact hd (hr ▸ h (by simp [hr]))
        rw [h1, h2]
        simp
      · have h1 : (r.sha256 == d) = false := by simp [hr]
        have h2 : (r.sha256 ∈ d :: ds → r.sha256 ∈ valid) ↔
            (r.sha256 ∈ ds → r.sha256 ∈ valid) := by
          constructor
          · intro h hm
            exact h (List.mem_cons_of_mem _ hm)
          · intro h hm
            rcases List.mem_cons.mp hm with hx | hx
            · exact absurd hx hr
            · exact h hx
        rw [h1]
        simp only [Bool.not_false, Bool.and_true]
        exact (decide_eq_decide.mpr h2).symm

theorem sqliteRefresh_eq_filter (ex : String → Bool)
    (rows : List DupRow) :
    sqliteRefreshDuplicates ex rows
      = rows.filter
          (fun r => (sqlGroupFilepaths rows r.sha256).all ex) := by
  unfold sqliteRefreshDuplicates
  rw [refresh_del_fold]
  apply List.filter_congr
  intro r hr
  have hmem : r.sha256 ∈ distinctShas rows :=
    mem_distinctShas.mpr ⟨r, hr, rfl⟩
  have hvalid : r.sha256 ∈ (distinctShas rows).filter
        (fun d => (sqlGroupFilepaths rows d).all ex) ↔
      ((sqlGroupFilepaths rows r.sha256).all ex = true) := by
    rw [List.mem_filter]
    exact ⟨fun h => h.2, fun h => ⟨hmem, h⟩⟩
  by_cases hall : (sqlGroupFilepaths rows r.sha256).all ex = true
  · rw [hall]
    simp only [decide_eq_true_eq]
    exact fun _ => hvalid.mpr hall
  · have hf : (sqlGroupFilepaths rows r.sha256).all ex = false := by
      cases h : (sqlGroupFilepaths rows r.sha256).all ex
      · rfl
      · exact absurd h hall
    rw [hf]
    exact decide_eq_false (fun himp => hall (hvalid.mp (himp hmem)))

theorem sqliteRefresh_filter_kept (ex : String → Bool)
    (rows : List DupRow) (d : String)
    (hall : ∀ r ∈ rows, r.sha256 = d → ex r.filepath = true) :
    (sqliteRefreshDuplicates ex rows).filter (fun r => r.sha256 == d)
      = rows.filter (fun r => r.sha256 == d) := by
  rw [sqliteRefresh_eq_filter, List.filter_filter]
  apply List.filter_congr
  intro r _
  by_cases hs : r.sha256 = d
  · have h1 : (r.sha256 == d) = true := by simp [hs]
    have h2 : (sqlGroupFilepaths rows r.sha256).all ex = true := by
      rw [List.all_eq_true]
      intro fp hfp
      rcases List.mem_map.mp hfp with ⟨q, hq, rfl⟩
      have hqm := List.mem_filter.mp hq
      have hqs : q.sha256 = d := by
        have := hqm.2
        simp only [beq_iff_eq] at this
        exact this.trans hs
      exact hall q hqm.1 hqs
    rw [h1, h2]
    rfl
  · have h1 : (r.sha256 == d) = false := by simp [hs]
    rw [h1]
    rfl

theorem sqliteRefresh_filter_dropped (ex : String → Bool)
    (rows : List DupRow) (d : String)
    (hmiss : ∃ r ∈ rows, r.sha256 = d ∧ ex r.filepath = false) :
    (sqliteRefreshDuplicates ex rows).filter (fun r => r.sha256 == d)
      = [] := by
  rcases hmiss with ⟨q, hq, hqd, hqex⟩
  rw [sqliteRefresh_eq_filter, List.filter_filter]
  rw [List.filter_eq_nil_iff]
  intro r hr
  by_cases hs : r.sha256 = d
  · have hqfp : q.filepath ∈ sqlGroupFilepaths rows r.sha256 :=
      List.mem_map.mpr
        ⟨q, List.mem_filter.mpr ⟨hq, by simp [hqd, hs]⟩, rfl⟩
    have hf : (sqlGroupFilepaths rows r.sha256).all ex = false := by
      cases hallb : (sqlGroupFilepaths rows r.sha256).all ex
      · rfl
      · have := List.all_eq_true.mp hallb _ hqfp
        rw [hqex] at this
        exact absurd this (by simp)
    simp [hf]
  · simp [hs]

theorem foldl_if_append (c : String × List DupRow → Bool) :
    ∀ (gs : List (String × List DupRow)) (acc : List DupRow),
      gs.foldl (fun a g => if c g then a ++ g.2 else a) acc
        = acc ++ ((gs.filter c).map (fun g => g.2)).flatten := by
  intro gs
  induction gs with
  | nil => intro acc; simp
  | cons g gs ih =>
    intro acc
    rw [List.foldl_cons, List.filter_cons]
    by_cases h : c g = true
    · rw [if_pos h, if_pos h, ih, List.map_cons, List.flatten_cons,
        List.append_assoc]
    · have hf : c g = false := by
        cases hc : c g
        · rfl
        · exact absurd hc h
      rw [if_neg h, if_neg (by simp [hf]), ih]

theorem csvRefresh_eq_flatten (ex : String → Bool) (rows : List DupRow) :
    csvRefreshDuplicates ex rows
      = (((groupByKey (fun r => r.sha256) rows).filter
            (fun g =>
              (g.2.map (fun entry => entry.filepath)).all ex)).map
          (fun g => g.2)).flatten := by
  unfold csvRefreshDuplicates
  rw [foldl_if_append]
  rfl

theorem flatten_filter_digest (d : String) :
    ∀ gs : List (String × List DupRow),
      (gs.map Prod.fst).Nodup →
      (∀ p ∈ gs, ∀ r ∈ p.2, r.sha256 = p.1) →
      ((gs.map (fun g => g.2)).flatten).filter (fun r => r.sha256 == d)
        = lookupG gs d := by
  intro gs
  induction gs with
  | nil => intro _ _; rfl
  | cons p rest ih =>
    intro hnd hent
    rw [List.map_cons, List.flatten_cons, List.filter_append]
    by_cases hp : p.1 = d
    · have hfilt : p.2.filter (fun r => r.sha256 == d) = p.2 :=
        List.filter_eq_self.mpr
          (fun r hr => by
            simp [hent p (List.mem_cons_self _ _) r hr, hp])
      have hrest : ((rest.map (fun g => g.2)).flatten).filter
          (fun r => r.sha256 == d) = [] := by
        rw [List.filter_eq_nil_iff]
        intro r hrm
        rcases List.mem_flatten.mp hrm with ⟨l, hl, hrl⟩
        rcases List.mem_map.mp hl with ⟨q, hq, rfl⟩
        have hr : r.sha256 = q.1 :=
          hent q (List.mem_cons_of_mem _ hq) r hrl
        have hqd : q.1 ≠ d := by
          intro he
          have hk : q.1 ∈ rest.map Prod.fst :=
            List.mem_map.mpr ⟨q, hq, rfl⟩
          rw [List.map_cons] at hnd
          exact (List.nodup_cons.mp hnd).1 (hp ▸ he ▸ hk)
        simp [hr, hqd]
      rw [hfilt, hrest, lookupG_cons_self p rest d hp, List.append_nil]
    · have hfilt : p.2.filter (fun r => r.sha256 == d) = [] :=
        List.filter_eq_nil_iff.mpr
          (fun r hr => by
            simp [hent p (List.mem_cons_self _ _) r hr, hp])
      rw [hfilt, lookupG_cons_of_ne p rest d hp, List.nil_append]
      rw [List.map_cons] at hnd
      exact ih (List.nodup_cons.mp hnd).2
        (fun q hq => hent q (List.mem_cons_of_mem _ hq))

theorem csv_filtered_keys_nodup (ex : String → Bool)
    (rows : List DupRow) :
    (((groupByKey (fun r => r.sha256) rows).filter
        (fun g =>
          (g.2.map (fun entry => entry.filepath)).all ex)).map
      Prod.fst).Nodup :=
  List.Nodup.sublist
    (List.Sublist.map Prod.fst (List.filter_sublist _))
    (groupByKey_keys_nodup _ rows)

theorem csvRefresh_filter (ex : String → Bool) (rows : List DupRow)
    (d : String) :
    (csvRefreshDuplicates ex rows).filter (fun r => r.sha256 == d)
      = lookupG
          ((groupByKey (fun r => r.sha256) rows).filter
            (fun g =>
              (g.2.map (fun entry => entry.filepath)).all ex)) d := by
  rw [csvRefresh_eq_flatten]
  apply flatten_filter_digest d _ (csv_filtered_keys_nodup ex rows)
  intro p hp r hr
  have hg := (List.mem_filter.mp hp).1
  have hq := (groupByKey_mem_iff (fun r => r.sha256) rows p.1 p.2).mp
    (by simpa using hg)
  have := List.mem_filter.mp (hq.1 ▸ hr)
  simpa using this.2

theorem csvRefresh_filter_kept (ex : String → Bool)
    (rows : List DupRow) (d : String)
    (hall : ∀ r ∈ rows, r.sha256 = d → ex r.filepath = true) :
    (csvRefreshDuplicates ex rows).filter (fun r => r.sha256 == d)
      = rows.filter (fun r => r.sha256 == d) := by
  rw [csvRefresh_filter]
  by_cases hnil : rows.filter (fun r => r.sha256 == d) = []
  · rw [hnil]
    by_contra hne
    have hmem := mem_of_lookupG_ne_nil hne
    have hmem2 := (List.mem_filter.mp hmem).1
    have hch := (groupByKey_mem_iff (fun r => r.sha256) rows d _).mp hmem2
    exact hch.2 (hch.1.trans hnil)
  · have hgmem : (d, rows.filter (fun r => r.sha256 == d)) ∈
        groupByKey (fun r => r.sha256) rows :=
      (groupByKey_mem_iff (fun r => r.sha256) rows d _).mpr ⟨rfl, hnil⟩
    have hvalidg : (((rows.filter (fun r => r.sha256 == d)).map
        (fun entry => entry.filepath)).all ex) = true := by
      rw [List.all_eq_true]
      intro fp hfp
      rcases List.mem_map.mp hfp with ⟨q, hq, rfl⟩
      have hqm := List.mem_filter.mp hq
      exact hall q hqm.1 (by simpa using hqm.2)
    have hmemf : (d, rows.filter (fun r => r.sha256 == d)) ∈
        (groupByKey (fun r => r.sha256) rows).filter
          (fun g =>
            (g.2.map (fun entry => entry.filepath)).all ex) :=
      List.mem_filter.mpr ⟨hgmem, hvalidg⟩
    exact lookupG_eq_of_mem_of_nodup (csv_filtered_keys_nodup ex rows)
      hmemf

theorem csvRefresh_filter_dropped (ex : String → Bool)
    (rows : List DupRow) (d : String)
    (hmiss : ∃ r ∈ rows, r.sha256 = d ∧ ex r.filepath = false) :
    (csvRefreshDuplicates ex rows).filter (fun r => r.sha256 == d)
      = [] := by
  rcases hmiss with ⟨q, hq, hqd, hqex⟩
  rw [csvRefresh_filter]
  by_contra hne
  have hmem := mem_of_lookupG_ne_nil hne
  have h1 := List.mem_filter.mp hmem
  have h2 := (groupByKey_mem_iff (fun r => r.sha256) rows d _).mp h1.1
  have hqin : q ∈ lookupG
      ((groupByKey (fun r => r.sha256) rows).filter
        (fun g => (g.2.map (fun entry => entry.filepath)).all ex)) d := by
    rw [h2.1]
    exact List.mem_filter.mpr ⟨hq, by simp [hqd]⟩
  have := List.all_eq_true.mp h1.2 q.filepath
    (List.mem_map.mpr ⟨q, hqin, rfl⟩)
  rw [hqex] at this
  exact absurd this (by simp)

/-- C1: for every persisted duplicate group (rows of one digest `d`),
refresh keeps all of the group's rows unchanged when every member path
exists, and removes every row of the group when any member path is
missing — for both the SQLite and the CSV backend. -/
theorem refresh_duplicates_wholesale_drop (ex : String → Bool)
    (rows : List DupRow) (d : String) :
    ((∀ r ∈ rows, r.sha256 = d → ex r.filepath = true) →
      (sqliteRefreshDuplicates ex rows).filter (fun r => r.sha256 == d)
          = rows.filter (fun r => r.sha256 == d) ∧
        (csvRefreshDuplicates ex rows).filter (fun r => r.sha256 == d)
          = rows.filter (fun r => r.sha256 == d)) ∧
    ((∃ r ∈ rows, r.sha256 = d ∧ ex r.filepath = false) →
      (sqliteRefreshDuplicates ex rows).filter (fun r => r.sha256 == d)
          = [] ∧
        (csvRefreshDuplicates ex rows).filter (fun r => r.sha256 == d)
          = []) :=
  ⟨fun h => ⟨sqliteRefresh_filter_kept ex rows d h,
             csvRefresh_filter_kept ex rows d h⟩,
   fun h => ⟨sqliteRefresh_filter_dropped ex rows d h,
             csvRefresh_filter_dropped ex rows d h⟩⟩

/-- A concrete existence predicate: every path exists except `"gone"`. -/
def exW : String → Bool := fun p => !(p == "gone")

/-- Concrete duplicates rows: group `"x"` has a missing member, group
`"y"` is fully live. -/
def rowsW : List DupRow :=
  [⟨"x", "f1", "p1", "t1", 1, 2⟩, ⟨"x", "f2", "gone", "t2", 1, 2⟩,
   ⟨"y", "f3", "p3", "t3", 2, 2⟩, ⟨"y", "f4", "p4", "t4", 2, 2⟩]

/-- Witness for C1: on `rowsW`, group `"y"` (all members exist) is kept
row-for-row and group `"x"` (one member missing) is dropped entirely,
in both backends. -/
theorem refresh_duplicates_wholesale_drop_witness :
    ((sqliteRefreshDuplicates exW rowsW).filter
          (fun r => r.sha256 == "y")
        = rowsW.filter (fun r => r.sha256 == "y") ∧
      (csvRefreshDuplicates exW rowsW).filter (fun r => r.sha256 == "y")
        = rowsW.filter (fun r => r.sha256 == "y")) ∧
    ((sqliteRefreshDuplicates exW rowsW).filter
          (fun r => r.sha256 == "x") = [] ∧
      (csvRefreshDuplicates exW rowsW).filter (fun r => r.sha256 == "x")
        = []) :=
  ⟨(refresh_duplicates_wholesale_drop exW rowsW "y").1 (by decide),
   (refresh_duplicates_wholesale_drop exW rowsW "x").2 (by decide)⟩

/-- `SQLiteStorage.refresh_duplicates` acting on the whole storage
state: the method only issues `DELETE` statements on the `duplicates`
table, so the `files` table is carried over unchanged. -/
def sqliteStorageRefresh (ex : String → Bool) (s : StorageState) :
    StorageState :=
  { files := s.files,
    duplicates := sqliteRefreshDuplicates ex s.duplicates }

/-- C10: `SQLiteStorage.refresh_duplicates` only ever deletes rows from
the duplicates table (the result is a sublist of the prior rows), every
row of a group whose members all exist is left unchanged, and the files
table is untouched. -/
theorem sqlite_refresh_frame (ex : String → Bool) (s : StorageState) :
    (sqliteStorageRefresh ex s).files = s.files ∧
    ((sqliteStorageRefresh ex s).duplicates).Sublist s.duplicates ∧
    ∀ d, (∀ r ∈ s.duplicates, r.sha256 = d → ex r.filepath = true) →
      (sqliteStorageRefresh ex s).duplicates.filter
          (fun r => r.sha256 == d)
        = s.duplicates.filter (fun r => r.sha256 == d) := by
  refine ⟨rfl, ?_, ?_⟩
  · show (sqliteRefreshDuplicates ex s.duplicates).Sublist s.duplicates
    rw [sqliteRefresh_eq_filter]
    exact List.filter_sublist _
  · intro d h
    exact sqliteRefresh_filter_kept ex s.duplicates d h

/-- Concrete storage state for the C10 witness. -/
def stW : StorageState := ⟨[⟨"f", "p", "t", 1, some "h"⟩], rowsW⟩

/-- Witness for C10 at a concrete state: files unchanged, duplicates
only shrink, and the fully-live group `"y"` keeps its rows. -/
theorem sqlite_refresh_frame_witness :
    (sqliteStorageRefresh exW stW).files = stW.files ∧
    ((sqliteStorageRefresh exW stW).duplicates).Sublist stW.duplicates ∧
    (sqliteStorageRefresh exW stW).duplicates.filter
        (fun r => r.sha256 == "y")
      = stW.duplicates.filter (fun r => r.sha256 == "y") :=
  ⟨(sqlite_refresh_frame exW stW).1,
   (sqlite_refresh_frame exW stW).2.1,
   (sqlite_refresh_frame exW stW).2.2 "y" (by decide)⟩

/-! ### get_duplicate_groups: stable digest order (C8) -/

/-- Append the trailing `current_group` when nonempty (the common
epilogue of both grouping loops without a limit). -/
def finishGroups (res : List (List DupEntry) × List DupEntry) :
    List (List DupEntry) :=
  if res.2 ≠ [] then res.1 ++ [res.2] else res.1

theorem csv_group_loop_none_eq :
    ∀ (rows : List DupRow) (groups : List (List DupEntry))
      (cur : List DupEntry) (prev : Option String),
      csv_group_loop none rows groups cur prev
        = group_rows_loop rows groups cur prev := by
  intro rows
  induction rows with
  | nil => intro groups cur prev; rfl
  | cons row rest ih =>
    intro groups cur prev
    rw [csv_group_loop, group_rows_loop]
    by_cases h : some row.sha256 ≠ prev ∧ cur ≠ []
    · rw [if_pos h, if_pos h]
      exact ih _ _ _
    · rw [if_neg h, if_neg h]
      exact ih _ _ _

theorem csvGetDuplicateGroups_none (rows : List DupRow) :
    csvGetDuplicateGroups rows none
      = finishGroups (group_rows_loop rows [] [] none) := by
  unfold csvGetDuplicateGroups finishGroups
  rw [csv_group_loop_none_eq]
  by_cases h : (group_rows_loop rows [] [] none).2 ≠ []
  · rw [if_pos ⟨h, Or.inl rfl⟩, if_pos h]
  · rw [if_neg (fun hc => h hc.1), if_neg h]

theorem sqliteGetDuplicateGroups_eq (rows : List DupRow) :
    sqliteGetDuplicateGroups rows
      = finishGroups
          (group_rows_loop
            (List.insertionSort (fun a b => a.sha256 ≤ b.sha256) rows)
            [] [] none) := rfl

theorem group_rows_loop_digests :
    ∀ (rows : List DupRow) (groups : List (List DupEntry))
      (cur : List DupEntry) (d : String),
      cur ≠ [] → (∀ e ∈ cur, e.sha256 = d) →
      (finishGroups (group_rows_loop rows groups cur (some d))).map
          groupDigest
        = groups.map groupDigest
            ++ dedupConsec (d :: rows.map (fun r => r.sha256)) := by
  intro rows
  induction rows with
  | nil =>
    intro groups cur d hcur hall
    rw [group_rows_loop, finishGroups, if_pos hcur, List.map_append]
    have hd : groupDigest cur = d := by
      cases cur with
      | nil => exact absurd rfl hcur
      | cons e rest =>
        simp [groupDigest, hall e (List.mem_cons_self _ _)]
    simp [hd, dedupConsec]
  | cons row rest ih =>
    intro groups cur d hcur hall
    rw [group_rows_loop]
    by_cases heq : row.sha256 = d
    · rw [if_neg (by
        rintro ⟨h1, _⟩
        exact h1 (by rw [heq]))]
      have hall2 : ∀ e ∈ cur ++ [toEntry row], e.sha256 = d := by
        intro e he
        rcases List.mem_append.mp he with h1 | h1
        · exact hall e h1
        · rw [List.mem_singleton.mp h1]
          exact heq
      rw [heq, ih groups (cur ++ [toEntry row]) d (by simp) hall2]
      rw [List.map_cons]
      congr 1
      show dedupConsec (d :: rest.map (fun r => r.sha256))
        = dedupConsec (d :: row.sha256 :: rest.map (fun r => r.sha256))
      rw [heq]
      cases hrest : rest.map (fun r => r.sha256) with
      | nil => simp [dedupConsec]
      | cons b t => simp [dedupConsec]
    · rw [if_pos ⟨by simpa using fun he => heq he, hcur⟩]
      have hd : groupDigest cur = d := by
        cases cur with
        | nil => exact absurd rfl hcur
        | cons e r2 =>
          simp [groupDigest, hall e (List.mem_cons_self _ _)]
      rw [ih (groups ++ [cur]) [toEntry row] row.sha256 (by simp)
        (by intro e he; rw [List.mem_singleton.mp he]; rfl)]
      have hdedup : dedupConsec
          (d :: row.sha256 :: rest.map (fun r => r.sha256))
        = d :: dedupConsec (row.sha256 :: rest.map (fun r => r.sha256))
          := by
        rw [dedupConsec]
        rw [if_neg (fun he => heq he.symm)]
      have hmap : List.map (fun r => r.sha256) (row :: rest)
          = row.sha256 :: rest.map (fun r => r.sha256) := rfl
      rw [hmap, hdedup, List.map_append]
      simp [hd, List.append_assoc]

theorem group_rows_loop_digests_base (rows : List DupRow) :
    (finishGroups (group_rows_loop rows [] [] none)).map groupDigest
      = dedupConsec (rows.map (fun r => r.sha256)) := by
  cases rows with
  | nil => rfl
  | cons row rest =>
    rw [group_rows_loop, if_neg (by rintro ⟨_, h2⟩; exact h2 rfl)]
    have := group_rows_loop_digests rest [] [toEntry row] row.sha256
      (by simp) (by intro e he; rw [List.mem_singleton.mp he]; rfl)
    simpa using this

theorem insertionSort_sha_map_eq (rows rows' : List DupRow)
    (h : rows.Perm rows') :
    (List.insertionSort (fun a b => a.sha256 ≤ b.sha256) rows).map
        (fun r => r.sha256)
      = (List.insertionSort (fun a b => a.sha256 ≤ b.sha256) rows').map
          (fun r => r.sha256) := by
  haveI ht : IsTotal DupRow (fun a b => a.sha256 ≤ b.sha256) :=
    ⟨fun a b => le_total a.sha256 b.sha256⟩
  haveI htr : IsTrans DupRow (fun a b => a.sha256 ≤ b.sha256) :=
    ⟨fun _ _ _ hab hbc => le_trans hab hbc⟩
  have hs1 := List.sorted_insertionSort
    (fun a b : DupRow => a.sha256 ≤ b.sha256) rows
  have hs2 := List.sorted_insertionSort
    (fun a b : DupRow => a.sha256 ≤ b.sha256) rows'
  have hm1 : List.Sorted (fun a b : String => a ≤ b)
      ((List.insertionSort (fun a b => a.sha256 ≤ b.sha256) rows).map
        (fun r => r.sha256)) :=
    List.Pairwise.map _ (fun _ _ hab => hab) hs1
  have hm2 : List.Sorted (fun a b : String => a ≤ b)
      ((List.insertionSort (fun a b => a.sha256 ≤ b.sha256) rows').map
        (fun r => r.sha256)) :=
    List.Pairwise.map _ (fun _ _ hab => hab) hs2
  have hperm :
      ((List.insertionSort (fun a b => a.sha256 ≤ b.sha256) rows).map
        (fun r => r.sha256)).Perm
      ((List.insertionSort (fun a b => a.sha256 ≤ b.sha256) rows').map
        (fun r => r.sha256)) :=
    ((List.perm_insertionSort _ rows).trans
      (h.trans (List.perm_insertionSort _ rows').symm)).map _
  exact List.eq_of_perm_of_sorted hperm hm1 hm2

/-- C8: both `get_duplicate_groups` implementations return their groups
in a digest order that is a pure function of the persisted state — the
SQLite backend even yields the same digest sequence for any insertion
order of the same rows (it is the `ORDER BY sha256` order with
consecutive duplicates merged), and the CSV backend yields the file
order of the persisted rows with consecutive duplicates merged.  Hence
repeated calls over the same persisted state see the same stable digest
order. -/
theorem get_duplicate_groups_stable_digest_order
    (rows rows' : List DupRow) (h : rows.Perm rows') :
    (sqliteGetDuplicateGroups rows).map groupDigest
        = (sqliteGetDuplicateGroups rows').map groupDigest ∧
    (sqliteGetDuplicateGroups rows).map groupDigest
        = dedupConsec
            ((List.insertionSort (fun a b => a.sha256 ≤ b.sha256)
              rows).map (fun r => r.sha256)) ∧
    (csvGetDuplicateGroups rows none).map groupDigest
        = dedupConsec (rows.map (fun r => r.sha256)) := by
  refine ⟨?_, ?_, ?_⟩
  · rw [sqliteGetDuplicateGroups_eq, sqliteGetDuplicateGroups_eq,
      group_rows_loop_digests_base, group_rows_loop_digests_base,
      insertionSort_sha_map_eq rows rows' h]
  · rw [sqliteGetDuplicateGroups_eq, group_rows_loop_digests_base]
  · rw [csvGetDuplicateGroups_none, group_rows_loop_digests_base]

/-- Witness for C8: two row lists that are permutations of each other
(different insertion order of the same four rows). -/
def rowsWp : List DupRow :=
  [⟨"y", "f3", "p3", "t3", 2, 2⟩, ⟨"x", "f1", "p1", "t1", 1, 2⟩,
   ⟨"y", "f4", "p4", "t4", 2, 2⟩, ⟨"x", "f2", "gone", "t2", 1, 2⟩]

/-- Witness for C8 at concrete inputs. -/
theorem get_duplicate_groups_stable_digest_order_witness :
    (sqliteGetDuplicateGroups rowsW).map groupDigest
        = (sqliteGetDuplicateGroups rowsWp).map groupDigest ∧
    (sqliteGetDuplicateGroups rowsW).map groupDigest
        = dedupConsec
            ((List.insertionSort (fun a b => a.sha256 ≤ b.sha256)
              rowsW).map (fun r => r.sha256)) ∧
    (csvGetDuplicateGroups rowsW none).map groupDigest
        = dedupConsec (rowsW.map (fun r => r.sha256)) :=
  get_duplicate_groups_stable_digest_order rowsW rowsWp (by decide)

/-! ### /duplicates pagination (C6, C9) -/

/-- C6: with 45 persisted groups, page 2 returns exactly the groups at
positions 21 through 40 (1-based), with `per_page = 20`,
`total_groups = 45`, `total_pages = 3` and `has_more = true`. -/
theorem get_duplicates_page2_of_45 (all_groups : List (List DupEntry))
    (h : all_groups.length = 45) :
    get_duplicates_route all_groups 2
      = ((all_groups.drop 20).take 20,
         { page := 2, per_page := 20, total_groups := 45,
           total_pages := 3, has_more := true }) := by
  unfold get_duplicates_route
  rw [h]
  rfl

/-- Concrete list of 45 one-member groups for the pagination
witnesses. -/
def groups45W : List (List DupEntry) :=
  (List.range 45).map (fun i => [⟨toString i, "", "", "", 0⟩])

/-- Witness for C6 at a concrete 45-group state. -/
theorem get_duplicates_page2_of_45_witness :
    get_duplicates_route groups45W 2
      = ((groups45W.drop 20).take 20,
         { page := 2, per_page := 20, total_groups := 45,
           total_pages := 3, has_more := true }) :=
  get_duplicates_page2_of_45 groups45W (by decide)

/-- C9: every `page` value below 1 is clamped to 1, so the response is
exactly that of `page = 1`. -/
theorem get_duplicates_page_clamped (all_groups : List (List DupEntry))
    (pageArg : Int) (h : pageArg < 1) :
    get_duplicates_route all_groups pageArg
      = get_duplicates_route all_groups 1 := by
  have h1 : (if pageArg < 1 then (1 : Int) else pageArg) = 1 := if_pos h
  have h2 : (if (1 : Int) < 1 then (1 : Int) else 1) = 1 := by norm_num
  simp only [get_duplicates_route, h1, h2]

/-- Witness for C9: `page = 0` and `page = -5` both produce the
`page = 1` response. -/
theorem get_duplicates_page_clamped_witness :
    get_duplicates_route groups45W 0 = get_duplicates_route groups45W 1
      ∧ get_duplicates_route groups45W (-5)
        = get_duplicates_route groups45W 1 :=
  ⟨get_duplicates_page_clamped groups45W 0 (by decide),
   get_duplicates_page_clamped groups45W (-5) (by decide)⟩

/-! ### Cache-aware processor (C3, C7) -/

theorem process_stat_fail (hb : List Nat → String) (fs : FSModel)
    (fi : String × String) (c : String × Nat → Option FileRecord)
    (hstat : fs.stat fi.1 = none) :
    process_single_file_with_cache hb fs fi c = (none, false) := by
  simp only [process_single_file_with_cache]
  rw [hstat]

theorem process_cache_hit (hb : List Nat → String) (fs : FSModel)
    (fi : String × String) (c : String × Nat → Option FileRecord)
    (st : StatInfo) (ent : FileRecord)
    (hstat : fs.stat fi.1 = some st)
    (hc : c (fi.1, st.st_size) = some ent)
    (ht : optTruthy ent.sha256 = true) :
    process_single_file_with_cache hb fs fi c = (some ent, false) := by
  simp only [process_single_file_with_cache]
  rw [hstat]
  simp only [hc, ht, if_pos]

theorem process_cache_miss (hb : List Nat → String) (fs : FSModel)
    (fi : String × String) (c : String × Nat → Option FileRecord)
    (st : StatInfo)
    (hstat : fs.stat fi.1 = some st)
    (hc : c (fi.1, st.st_size) = none) :
    process_single_file_with_cache hb fs fi c
      = hashNowResult hb fs fi.1 st := by
  simp only [process_single_file_with_cache]
  rw [hstat]
  simp only [hc]

theorem process_cache_stale (hb : List Nat → String) (fs : FSModel)
    (fi : String × String) (c : String × Nat → Option FileRecord)
    (st : StatInfo) (ent : FileRecord)
    (hstat : fs.stat fi.1 = some st)
    (hc : c (fi.1, st.st_size) = some ent)
    (ht : optTruthy ent.sha256 = false) :
    process_single_file_with_cache hb fs fi c
      = hashNowResult hb fs fi.1 st := by
  simp only [process_single_file_with_cache]
  rw [hstat]
  simp only [hc, ht]
  rw [if_neg (by simp)]

theorem hashNowResult_hashed (hb : List Nat → String) (fs : FSModel)
    (p : String) (st : StatInfo) :
    (hashNowResult hb fs p st).2 = true := by
  unfold hashNowResult
  by_cases h : optTruthy (calculate_sha256 hb fs.readFile p) = true
  · rw [if_pos h]
  · rw [if_neg h]

theorem process_root_irrelevant (hb : List Nat → String) (fs : FSModel)
    (p ro ro2 : String) (c : String × Nat → Option FileRecord) :
    process_single_file_with_cache hb fs (p, ro) c
      = process_single_file_with_cache hb fs (p, ro2) c := rfl

/-- C3: when stat succeeds, the processor returns the cached record
verbatim and skips hashing exactly when the cache holds the key
`(path, size)` with a truthy (non-empty, present) digest; in every
other case — cache miss (including a changed size, which changes the
key) or a cached entry without a usable digest — `calculate_sha256` is
invoked. -/
theorem process_cache_decision (hb : List Nat → String) (fs : FSModel)
    (fi : String × String) (c : String × Nat → Option FileRecord)
    (st : StatInfo) (hstat : fs.stat fi.1 = some st) :
    (∀ ent, c (fi.1, st.st_size) = some ent →
      optTruthy ent.sha256 = true →
      process_single_file_with_cache hb fs fi c = (some ent, false)) ∧
    ((∀ ent, c (fi.1, st.st_size) = some ent →
        optTruthy ent.sha256 = false) →
      (process_single_file_with_cache hb fs fi c).2 = true) := by
  constructor
  · intro ent hc ht
    exact process_cache_hit hb fs fi c st ent hstat hc ht
  · intro hno
    cases hc : c (fi.1, st.st_size) with
    | none =>
      rw [process_cache_miss hb fs fi c st hstat hc]
      exact hashNowResult_hashed hb fs fi.1 st
    | some ent =>
      rw [process_cache_stale hb fs fi c st ent hstat hc (hno ent hc)]
      exact hashNowResult_hashed hb fs fi.1 st

/-- Concrete filesystem for the processor witnesses: files `/t/a`,
`/t/b` (content `[1,2,3]`, size 3) and `/t/c` (content `[9]`, size 5);
everything else is absent. -/
def fsW : FSModel :=
  { stat := fun p =>
      if p = "/t/a" ∨ p = "/t/b" then some ⟨3, "t"⟩
      else if p = "/t/c" then some ⟨5, "t"⟩ else none,
    readFile := fun p =>
      if p = "/t/a" ∨ p = "/t/b" then some [1, 2, 3]
      else if p = "/t/c" then some [9] else none }

/-- Concrete digest function for the witnesses (injective on the
contents used; stands in for SHA-256 hex). -/
def hbW : List Nat → String :=
  fun bs => String.intercalate "-" (bs.map toString)

/-- A cache holding `/t/a` at its current size 3 with a non-empty
digest, and `/t/c` at a stale size 4. -/
def cacheW : String × Nat → Option FileRecord :=
  fun key =>
    if key = ("/t/a", 3) then
      some ⟨"a", "/t/a", "t0", 3, some "cacheddigest"⟩
    else if key = ("/t/c", 4) then
      some ⟨"c", "/t/c", "t0", 4, some "staledigest"⟩
    else none

/-- Witness for C3: the cached `/t/a` is returned verbatim without
hashing; `/t/c` was cached under the old size 4 and its size is now 5,
so the hasher runs. -/
theorem process_cache_decision_witness :
    process_single_file_with_cache hbW fsW ("/t/a", "/t") cacheW
        = (some ⟨"a", "/t/a", "t0", 3, some "cacheddigest"⟩, false) ∧
    (process_single_file_with_cache hbW fsW ("/t/c", "/t") cacheW).2
        = true :=
  ⟨(process_cache_decision hbW fsW ("/t/a", "/t") cacheW ⟨3, "t"⟩
      (by decide)).1 _ (by decide) (by decide),
   (process_cache_decision hbW fsW ("/t/c", "/t") cacheW ⟨5, "t"⟩
      (by decide)).2 (by decide)⟩

theorem filterMap_length_all_some {α β : Type} (f : α → Option β) :
    ∀ l : List α, (∀ q ∈ l, (f q).isSome = true) →
      (l.filterMap f).length = l.length := by
  intro l
  induction l with
  | nil => intro _; rfl
  | cons a l ih =>
    intro h
    have ha := h a (List.mem_cons_self _ _)
    rcases Option.isSome_iff_exists.mp ha with ⟨b, hb⟩
    rw [List.filterMap_cons, hb]
    simp only [List.length_cons]
    rw [ih (fun q hq => h q (List.mem_cons_of_mem _ hq))]

theorem filterMap_length_one_none {α β : Type} (f : α → Option β) :
    ∀ (l : List α) (p : α), l.Nodup → p ∈ l → f p = none →
      (∀ q ∈ l, q ≠ p → (f q).isSome = true) →
      (l.filterMap f).length = l.length - 1 := by
  intro l
  induction l with
  | nil => intro p _ hp; cases hp
  | cons a l ih =>
    intro p hnd hp hfail hok
    rcases List.mem_cons.mp hp with h1 | h1
    · subst h1
      rw [List.filterMap_cons, hfail]
      have hnotin := (List.nodup_cons.mp hnd).1
      have : ∀ q ∈ l, (f q).isSome = true := by
        intro q hq
        exact hok q (List.mem_cons_of_mem _ hq)
          (fun he => hnotin (he ▸ hq))
      rw [filterMap_length_all_some f l this]
      simp
    · have hap : a ≠ p := by
        intro he
        exact (List.nodup_cons.mp hnd).1 (he ▸ h1)
      have ha := hok a (List.mem_cons_self _ _) hap
      rcases Option.isSome_iff_exists.mp ha with ⟨b, hb⟩
      rw [List.filterMap_cons, hb]
      simp only [List.length_cons]
      rw [ih p (List.nodup_cons.mp hnd).2 h1 hfail
        (fun q hq hqp => hok q (List.mem_cons_of_mem _ hq) hqp)]
      have hlen : 1 ≤ l.length := by
        cases l with
        | nil => cases h1
        | cons x xs => simp
      omega

/-- C7: `calculate_sha256` yields `None` on any error while reading
(the modelled `except` branch) instead of raising; a batch containing
one unreadable file among N files still produces the records of the
other N-1 files — the one failure only omits that file. -/
theorem soft_failure_isolation (hb : List Nat → String) (fs : FSModel)
    (c : String × Nat → Option FileRecord)
    (files : List (String × String)) (p : String × String)
    (st : StatInfo) (hnd : files.Nodup) (hp : p ∈ files)
    (hstat : fs.stat p.1 = some st)
    (hread : fs.readFile p.1 = none)
    (hcache : c (p.1, st.st_size) = none)
    (hok : ∀ q ∈ files, q ≠ p →
      ((process_single_file_with_cache hb fs q c).1).isSome = true) :
    calculate_sha256 hb fs.readFile p.1 = none ∧
    (process_single_file_with_cache hb fs p c).1 = none ∧
    (files.filterMap
        (fun q => (process_single_file_with_cache hb fs q c).1)).length
      = files.length - 1 ∧
    (∀ q ∈ files, ∀ r,
      (process_single_file_with_cache hb fs q c).1 = some r →
      r ∈ files.filterMap
        (fun q => (process_single_file_with_cache hb fs q c).1)) := by
  have hcalc : calculate_sha256 hb fs.readFile p.1 = none := by
    unfold calculate_sha256
    rw [hread]
  have hpnone : (process_single_file_with_cache hb fs p c).1 = none := by
    rw [process_cache_miss hb fs p c st hstat hcache]
    unfold hashNowResult
    rw [hcalc]
    rfl
  refine ⟨hcalc, hpnone, ?_, ?_⟩
  · exact filterMap_length_one_none _ files p hnd hp hpnone hok
  · intro q hq r hr
    exact List.mem_filterMap.mpr ⟨q, hq, hr⟩

/-- Witness for C7: `/t/u` stats fine (size 9) but cannot be read; the
other two files process normally, so 3 files yield 2 records. -/
def fsU : FSModel :=
  { stat := fun p =>
      if p = "/t/a" ∨ p = "/t/b" then some ⟨3, "t"⟩
      else if p = "/t/u" then some ⟨9, "t"⟩ else none,
    readFile := fun p =>
      if p = "/t/a" ∨ p = "/t/b" then some [1, 2, 3] else none }

/-- Witness for C7 at a concrete batch. -/
theorem soft_failure_isolation_witness :
    calculate_sha256 hbW fsU.readFile "/t/u" = none ∧
    (process_single_file_with_cache hbW fsU ("/t/u", "/t")
        (fun _ => none)).1 = none ∧
    ([("/t/a", "/t"), ("/t/b", "/t"), ("/t/u", "/t")].filterMap
        (fun q => (process_single_file_with_cache hbW fsU q
          (fun _ => none)).1)).length
      = [("/t/a", "/t"), ("/t/b", "/t"), ("/t/u", "/t")].length - 1 ∧
    (∀ q ∈ [("/t/a", "/t"), ("/t/b", "/t"), ("/t/u", "/t")], ∀ r,
      (process_single_file_with_cache hbW fsU q (fun _ => none)).1
        = some r →
      r ∈ [("/t/a", "/t"), ("/t/b", "/t"), ("/t/u", "/t")].filterMap
        (fun q => (process_single_file_with_cache hbW fsU q
          (fun _ => none)).1)) :=
  soft_failure_isolation hbW fsU (fun _ => none)
    [("/t/a", "/t"), ("/t/b", "/t"), ("/t/u", "/t")] ("/t/u", "/t")
    ⟨9, "t"⟩ (by decide) (by decide) (by decide) (by decide) (by decide)
    (by decide)

/-! ### Scan pipeline: save semantics (C4) -/

/-- The duplicate groups computed by a pipeline run from its collected
records. -/
def scanDuplicates (file_results : List FileRecord) :
    List (String × List FileRecord) :=
  find_duplicates (file_results.map some)

/-- C4 (amended): after a completed scan that collected at least one
candidate file, the files table is fully replaced with this scan's
records; the duplicates table is fully replaced with exactly this
scan's computed groups when at least one group was found, but when the
scan finds zero duplicate groups `save_duplicates` is not called and
the previously persisted groups are left in place. -/
theorem process_directories_save_semantics (hb : List Nat → String)
    (fs : FSModel) (files : List (String × String)) (s : StorageState)
    (hne : ¬files.length = 0) :
    (scanDuplicates (process_multiple_directories hb fs files s).2 ≠ []
      → (process_multiple_directories hb fs files s).1.duplicates
          = save_duplicates
              (scanDuplicates
                (process_multiple_directories hb fs files s).2)) ∧
    (scanDuplicates (process_multiple_directories hb fs files s).2 = []
      → (process_multiple_directories hb fs files s).1.duplicates
          = s.duplicates) ∧
    (process_multiple_directories hb fs files s).1.files
      = save_files
          ((process_multiple_directories hb fs files s).2.map some) := by
  unfold process_multiple_directories scanDuplicates
  rw [if_neg hne]
  simp only []
  by_cases hdup : find_duplicates
      ((files.filterMap (fun file_info =>
        (process_single_file_with_cache hb fs file_info
          (load_existing_file_cache s.files)).1)).map some) = []
  · rw [if_pos (by rw [List.isEmpty_iff]; exact hdup)]
    exact ⟨fun h => absurd hdup h, fun _ => rfl, rfl⟩
  · rw [if_neg (by rw [List.isEmpty_iff]; exact hdup)]
    exact ⟨fun _ => rfl, fun h => absurd h hdup, rfl⟩

/-- Witness for C4 (amended), nonempty-groups side: scanning `/t/a` and
`/t/b` (equal content) replaces the duplicates table with exactly that
group, discarding a stale prior row. -/
def staleRow : DupRow := ⟨"old", "f", "p", "t", 1, 2⟩

/-- A prior storage state holding one stale duplicates row. -/
def sPrior : StorageState := ⟨[], [staleRow]⟩

/-- Witness for the amended C4 at concrete inputs: with duplicates
found, the persisted set is exactly the scan's groups; the files table
is the saved records. -/
theorem process_directories_save_semantics_witness :
    (scanDuplicates (process_multiple_directories hbW fsW
        [("/t/a", "/t"), ("/t/b", "/t")] sPrior).2 ≠ []
      → (process_multiple_directories hbW fsW
          [("/t/a", "/t"), ("/t/b", "/t")] sPrior).1.duplicates
          = save_duplicates
              (scanDuplicates (process_multiple_directories hbW fsW
                [("/t/a", "/t"), ("/t/b", "/t")] sPrior).2)) ∧
    (scanDuplicates (process_multiple_directories hbW fsW
        [("/t/a", "/t"), ("/t/b", "/t")] sPrior).2 = []
      → (process_multiple_directories hbW fsW
          [("/t/a", "/t"), ("/t/b", "/t")] sPrior).1.duplicates
          = sPrior.duplicates) ∧
    (process_multiple_directories hbW fsW
        [("/t/a", "/t"), ("/t/b", "/t")] sPrior).1.files
      = save_files ((process_multiple_directories hbW fsW
          [("/t/a", "/t"), ("/t/b", "/t")] sPrior).2.map some)
    :=
  process_directories_save_semantics hbW fsW
    [("/t/a", "/t"), ("/t/b", "/t")] sPrior (by decide)

/-- Counterexample to C4 as stated: a completed scan of `/t/c` alone
finds zero duplicate groups, yet the previously persisted group row
survives — the persisted duplicate-group set is not replaced by this
scan's (empty) group set. -/
theorem process_directories_zero_groups_counterexample :
    (process_multiple_directories hbW fsW [("/t/c", "/t")]
        sPrior).1.duplicates = [staleRow] ∧
    scanDuplicates (process_multiple_directories hbW fsW [("/t/c", "/t")]
        sPrior).2 = [] ∧
    (process_multiple_directories hbW fsW [("/t/c", "/t")]
        sPrior).1.duplicates
      ≠ save_duplicates
          (scanDuplicates (process_multiple_directories hbW fsW
            [("/t/c", "/t")] sPrior).2) := by
  refine ⟨by decide, by decide, by decide⟩

/-! ### Pipeline idempotence machinery (C5) -/

/-- The records collected by one pipeline pass over `files` with the
given cache (the pool is modelled in submission order; grouping and
saving are order-independent). -/
def scanResults (hb : List Nat → String) (fs : FSModel)
    (files : List (String × String))
    (cache : String × Nat → Option FileRecord) : List FileRecord :=
  files.filterMap
    (fun file_info =>
      (process_single_file_with_cache hb fs file_info cache).1)

theorem load_cache_shape (rows : List FileRecord) (k : String × Nat)
    (ent : FileRecord) (h : load_existing_file_cache rows k = some ent) :
    ent.filepath = k.1 ∧ ent.file_size = k.2 ∧ ent ∈ rows := by
  unfold load_existing_file_cache at h
  have hm := List.mem_of_mem_getLast? h
  have hmf := List.mem_filter.mp hm
  have hb2 := hmf.2
  simp only [Bool.and_eq_true, beq_iff_eq] at hb2
  exact ⟨hb2.1, hb2.2, hmf.1⟩

theorem hashNowResult_fst_some_shape (hb : List Nat → String)
    (fs : FSModel) (p : String) (st : StatInfo) (r : FileRecord)
    (h : (hashNowResult hb fs p st).1 = some r) :
    r.filepath = p ∧ r.file_size = st.st_size ∧
      optTruthy r.sha256 = true := by
  simp only [hashNowResult] at h
  by_cases hsh : optTruthy (calculate_sha256 hb fs.readFile p) = true
  · rw [if_pos hsh] at h
    have h2 := Option.some.inj h
    rw [← h2]
    exact ⟨rfl, rfl, hsh⟩
  · rw [if_neg hsh] at h
    exact Option.noConfusion h

theorem process_record_shape (hb : List Nat → String) (fs : FSModel)
    (fi : String × String) (c : String × Nat → Option FileRecord)
    (hc : ∀ k ent, c k = some ent →
      ent.filepath = k.1 ∧ ent.file_size = k.2)
    (r : FileRecord)
    (h : (process_single_file_with_cache hb fs fi c).1 = some r) :
    ∃ st, fs.stat fi.1 = some st ∧ r.filepath = fi.1 ∧
      r.file_size = st.st_size ∧ optTruthy r.sha256 = true := by
  cases hstat : fs.stat fi.1 with
  | none =>
    rw [process_stat_fail hb fs fi c hstat] at h
    exact Option.noConfusion h
  | some st =>
    refine ⟨st, rfl, ?_⟩
    cases hcache : c (fi.1, st.st_size) with
    | some ent =>
      by_cases ht : optTruthy ent.sha256 = true
      · rw [process_cache_hit hb fs fi c st ent hstat hcache ht] at h
        have h2 := Option.some.inj h
        rw [← h2]
        have := hc (fi.1, st.st_size) ent hcache
        exact ⟨this.1, this.2, ht⟩
      · have ht2 : optTruthy ent.sha256 = false := by
          cases ho : optTruthy ent.sha256
          · rfl
          · exact absurd ho ht
        rw [process_cache_stale hb fs fi c st ent hstat hcache ht2] at h
        exact hashNowResult_fst_some_shape hb fs fi.1 st r h
    | none =>
      rw [process_cache_miss hb fs fi c st hstat hcache] at h
      exact hashNowResult_fst_some_shape hb fs fi.1 st r h

theorem save_files_foldl_mem :
    ∀ (l : List (Option FileRecord)) (acc : List FileRecord)
      (r : FileRecord),
      r ∈ l.foldl
        (fun rows file_data =>
          match file_data with
          | some x =>
            rows.filter (fun y => !(y.filepath == x.filepath)) ++ [x]
          | none => rows) acc →
      r ∈ acc ∨ some r ∈ l := by
  intro l
  induction l with
  | nil => intro acc r h; exact Or.inl h
  | cons fd l ih =>
    intro acc r h
    rw [List.foldl_cons] at h
    cases fd with
    | none =>
      rcases ih _ r h with h1 | h1
      · exact Or.inl h1
      · exact Or.inr (List.mem_cons_of_mem _ h1)
    | some x =>
      rcases ih _ r h with h1 | h1
      · rcases List.mem_append.mp h1 with h2 | h2
        · exact Or.inl (List.mem_filter.mp h2).1
        · rw [List.mem_singleton.mp h2]
          exact Or.inr (List.mem_cons_self _ _)
      · exact Or.inr (List.mem_cons_of_mem _ h1)

theorem save_files_mem {l : List FileRecord} {r : FileRecord}
    (h : r ∈ save_files (l.map some)) : r ∈ l := by
  unfold save_files at h
  rcases save_files_foldl_mem (l.map some) [] r h with h1 | h1
  · cases h1
  · rcases List.mem_map.mp h1 with ⟨x, hx, he⟩
    injection he with he
    exact he ▸ hx

theorem save_files_foldl_exists :
    ∀ (l : List (Option FileRecord)) (acc : List FileRecord)
      (fp : String),
      ((∃ row ∈ acc, row.filepath = fp) ∨
        (∃ x, some x ∈ l ∧ x.filepath = fp)) →
      ∃ row ∈ l.foldl
          (fun rows file_data =>
            match file_data with
            | some x =>
              rows.filter (fun y => !(y.filepath == x.filepath)) ++ [x]
            | none => rows) acc,
        row.filepath = fp := by
  intro l
  induction l with
  | nil =>
    intro acc fp h
    rcases h with h | ⟨x, hx, _⟩
    · exact h
    · cases hx
  | cons fd l ih =>
    intro acc fp h
    rw [List.foldl_cons]
    cases fd with
    | none =>
      apply ih
      rcases h with h | ⟨x, hx, hfp⟩
      · exact Or.inl h
      · rcases List.mem_cons.mp hx with h1 | h1
        · exact Option.noConfusion h1
        · exact Or.inr ⟨x, h1, hfp⟩
    | some y =>
      apply ih
      rcases h with ⟨row, hrow, hfp⟩ | ⟨x, hx, hfp⟩
      · by_cases hq : row.filepath = y.filepath
        · refine Or.inl ⟨y, List.mem_append_right _ (List.mem_singleton.mpr rfl), ?_⟩
          rw [← hq, hfp]
        · refine Or.inl ⟨row, List.mem_append_left _ ?_, hfp⟩
          exact List.mem_filter.mpr ⟨hrow, by simpa using hq⟩
      · rcases List.mem_cons.mp hx with h1 | h1
        · injection h1 with h1
          refine Or.inl ⟨y, List.mem_append_right _ (List.mem_singleton.mpr rfl), ?_⟩
          rw [← h1, hfp]
        · exact Or.inr ⟨x, h1, hfp⟩

theorem save_files_exists {l : List FileRecord} {x : FileRecord}
    (hx : x ∈ l) :
    ∃ row ∈ save_files (l.map some), row.filepath = x.filepath := by
  unfold save_files
  exact save_files_foldl_exists (l.map some) [] x.filepath
    (Or.inr ⟨x, List.mem_map.mpr ⟨x, hx, rfl⟩, rfl⟩)

theorem getLast?_eq_of_all_eq {α : Type} :
    ∀ (l : List α) (a : α), a ∈ l → (∀ x ∈ l, x = a) →
      l.getLast? = some a := by
  intro l
  induction l with
  | nil => intro a ha _; cases ha
  | cons x xs ih =>
    intro a ha hall
    cases xs with
    | nil =>
      rw [hall x (List.mem_cons_self _ _)]
      rfl
    | cons y ys =>
      rw [List.getLast?_cons_cons]
      have hy : y = a := hall y (List.mem_cons_of_mem _ (List.mem_cons_self _ _))
      exact ih a (hy ▸ List.mem_cons_self y ys)
        (fun z hz => hall z (List.mem_cons_of_mem _ hz))

theorem filterMap_congr_mem {α β : Type} (f g : α → Option β) :
    ∀ l : List α, (∀ x ∈ l, f x = g x) →
      l.filterMap f = l.filterMap g := by
  intro l
  induction l with
  | nil => intro _; rfl
  | cons x l ih =>
    intro h
    rw [List.filterMap_cons, List.filterMap_cons,
      h x (List.mem_cons_self _ _),
      ih (fun y hy => h y (List.mem_cons_of_mem _ hy))]

theorem load_cache_shaped (rows : List FileRecord) :
    ∀ k ent, load_existing_file_cache rows k = some ent →
      ent.filepath = k.1 ∧ ent.file_size = k.2 :=
  fun k ent h =>
    ⟨(load_cache_shape rows k ent h).1, (load_cache_shape rows k ent h).2.1⟩

theorem process_fst_at_path (hb : List Nat → String) (fs : FSModel)
    (fi : String × String) (c : String × Nat → Option FileRecord) :
    (process_single_file_with_cache hb fs (fi.1, "") c).1
      = (process_single_file_with_cache hb fs fi c).1 := by
  rw [process_root_irrelevant hb fs fi.1 "" fi.2, Prod.mk.eta]

theorem rows2_process (hb : List Nat → String) (fs : FSModel)
    (files : List (String × String)) (s : StorageState) :
    ∀ row ∈ save_files
        ((scanResults hb fs files
          (load_existing_file_cache s.files)).map some),
      (process_single_file_with_cache hb fs (row.filepath, "")
        (load_existing_file_cache s.files)).1 = some row := by
  intro row hrow
  have hres := save_files_mem hrow
  rcases List.mem_filterMap.mp hres with ⟨fi, _, hpr⟩
  obtain ⟨st, _, hfp, _, _⟩ := process_record_shape hb fs fi
    (load_existing_file_cache s.files)
    (load_cache_shaped s.files) row hpr
  rw [hfp, process_fst_at_path hb fs fi (load_existing_file_cache s.files)]
  exact hpr

theorem cache2_hit (hb : List Nat → String) (fs : FSModel)
    (files : List (String × String)) (s : StorageState)
    (fi : String × String) (hfi : fi ∈ files) (r : FileRecord)
    (hpr : (process_single_file_with_cache hb fs fi
      (load_existing_file_cache s.files)).1 = some r) :
    load_existing_file_cache
        (save_files
          ((scanResults hb fs files
            (load_existing_file_cache s.files)).map some))
        (fi.1, r.file_size) = some r := by
  have hrmem : r ∈ scanResults hb fs files
      (load_existing_file_cache s.files) :=
    List.mem_filterMap.mpr ⟨fi, hfi, hpr⟩
  obtain ⟨st, hstat, hfp, hsz, htr⟩ := process_record_shape hb fs fi
    (load_existing_file_cache s.files)
    (load_cache_shaped s.files) r hpr
  have hr1 : (process_single_file_with_cache hb fs (r.filepath, "")
      (load_existing_file_cache s.files)).1 = some r := by
    rw [hfp, process_fst_at_path hb fs fi
      (load_existing_file_cache s.files)]
    exact hpr
  have huniq : ∀ row ∈ save_files
      ((scanResults hb fs files
        (load_existing_file_cache s.files)).map some),
      row.filepath = r.filepath → row = r := by
    intro row hrow hfp2
    have h1 := rows2_process hb fs files s row hrow
    rw [hfp2] at h1
    rw [h1] at hr1
    exact Option.some.inj hr1
  obtain ⟨row0, hrow0, hfp0⟩ := save_files_exists hrmem
  have hr0 : row0 = r := huniq row0 hrow0 hfp0
  unfold load_existing_file_cache
  apply getLast?_eq_of_all_eq
  · refine List.mem_filter.mpr ⟨hr0 ▸ hrow0, ?_⟩
    simp [hfp]
  · intro x hx
    have hxm := List.mem_filter.mp hx
    have hb2 := hxm.2
    simp only [Bool.and_eq_true, beq_iff_eq] at hb2
    exact huniq x hxm.1 (hb2.1.trans hfp.symm)

theorem cache2_miss (hb : List Nat → String) (fs : FSModel)
    (files : List (String × String)) (s : StorageState)
    (fi : String × String) (st : StatInfo)
    (hpr : (process_single_file_with_cache hb fs fi
      (load_existing_file_cache s.files)).1 = none) :
    load_existing_file_cache
        (save_files
          ((scanResults hb fs files
            (load_existing_file_cache s.files)).map some))
        (fi.1, st.st_size) = none := by
  cases hc : load_existing_file_cache
      (save_files
        ((scanResults hb fs files
          (load_existing_file_cache s.files)).map some))
      (fi.1, st.st_size) with
  | none => rfl
  | some ent =>
    exfalso
    obtain ⟨hfp, _, hmem⟩ := load_cache_shape _ _ ent hc
    have h1 := rows2_process hb fs files s ent hmem
    rw [hfp, process_fst_at_path hb fs fi
      (load_existing_file_cache s.files), hpr] at h1
    exact Option.noConfusion h1

theorem run2_per_path (hb : List Nat → String) (fs : FSModel)
    (files : List (String × String)) (s : StorageState)
    (fi : String × String) (hfi : fi ∈ files) :
    (process_single_file_with_cache hb fs fi
        (load_existing_file_cache
          (save_files
            ((scanResults hb fs files
              (load_existing_file_cache s.files)).map some)))).1
      = (process_single_file_with_cache hb fs fi
          (load_existing_file_cache s.files)).1 ∧
    ∀ rec,
      (process_single_file_with_cache hb fs fi
        (load_existing_file_cache
          (save_files
            ((scanResults hb fs files
              (load_existing_file_cache s.files)).map some)))).1
        = some rec →
      (process_single_file_with_cache hb fs fi
        (load_existing_file_cache
          (save_files
            ((scanResults hb fs files
              (load_existing_file_cache s.files)).map some)))).2
        = false := by
  cases hstat : fs.stat fi.1 with
  | none =>
    rw [process_stat_fail hb fs fi _ hstat,
      process_stat_fail hb fs fi _ hstat]
    exact ⟨rfl, fun rec h => Option.noConfusion h⟩
  | some st =>
    cases h1 : (process_single_file_with_cache hb fs fi
        (load_existing_file_cache s.files)).1 with
    | some r =>
      obtain ⟨st2, hstat2, hfp, hsz, htr⟩ := process_record_shape hb fs
        fi (load_existing_file_cache s.files)
        (load_cache_shaped s.files) r h1
      have hst : st2 = st := by
        rw [hstat] at hstat2
        exact (Option.some.inj hstat2).symm
      have hhit := cache2_hit hb fs files s fi hfi r h1
      rw [hsz, hst] at hhit
      rw [process_cache_hit hb fs fi _ st r hstat hhit htr]
      exact ⟨rfl, fun rec _ => rfl⟩
    | none =>
      have hmiss := cache2_miss hb fs files s fi st h1
      rw [process_cache_miss hb fs fi _ st hstat hmiss]
      have hnone : (hashNowResult hb fs fi.1 st).1 = none := by
        cases hc1v : load_existing_file_cache s.files
            (fi.1, st.st_size) with
        | none =>
          rw [process_cache_miss hb fs fi _ st hstat hc1v] at h1
          exact h1
        | some ent =>
          by_cases ht : optTruthy ent.sha256 = true
          · rw [process_cache_hit hb fs fi _ st ent hstat hc1v ht] at h1
            exact Option.noConfusion h1
          · have ht2 : optTruthy ent.sha256 = false := by
              cases ho : optTruthy ent.sha256
              · rfl
              · exact absurd ho ht
            rw [process_cache_stale hb fs fi _ st ent hstat hc1v ht2]
              at h1
            exact h1
      refine ⟨hnone, ?_⟩
      intro rec hrec
      rw [hnone] at hrec
      exact Option.noConfusion hrec

theorem pd_empty (hb : List Nat → String) (fs : FSModel)
    (files : List (String × String)) (s : StorageState)
    (hf : files.length = 0) :
    process_multiple_directories hb fs files s = (s, []) := by
  unfold process_multiple_directories
  rw [if_pos hf]

theorem pd_results (hb : List Nat → String) (fs : FSModel)
    (files : List (String × String)) (s : StorageState)
    (hne : ¬files.length = 0) :
    (process_multiple_directories hb fs files s).2
      = scanResults hb fs files (load_existing_file_cache s.files) := by
  unfold process_multiple_directories scanResults
  rw [if_neg hne]
  by_cases hd : (find_duplicates
      ((files.filterMap (fun file_info =>
        (process_single_file_with_cache hb fs file_info
          (load_existing_file_cache s.files)).1)).map some)).isEmpty
  · rw [if_pos hd]
  · rw [if_neg hd]

theorem pd_files (hb : List Nat → String) (fs : FSModel)
    (files : List (String × String)) (s : StorageState)
    (hne : ¬files.length = 0) :
    (process_multiple_directories hb fs files s).1.files
      = save_files
          ((scanResults hb fs files
            (load_existing_file_cache s.files)).map some) := by
  unfold process_multiple_directories scanResults
  rw [if_neg hne]
  by_cases hd : (find_duplicates
      ((files.filterMap (fun file_info =>
        (process_single_file_with_cache hb fs file_info
          (load_existing_file_cache s.files)).1)).map some)).isEmpty
  · rw [if_pos hd]
  · rw [if_neg hd]

theorem pd_dups (hb : List Nat → String) (fs : FSModel)
    (files : List (String × String)) (s : StorageState)
    (hne : ¬files.length = 0) :
    (process_multiple_directories hb fs files s).1.duplicates
      = (if (find_duplicates
            ((scanResults hb fs files
              (load_existing_file_cache s.files)).map some)).isEmpty
         then s.duplicates
         else save_duplicates
            (find_duplicates
              ((scanResults hb fs files
                (load_existing_file_cache s.files)).map some))) := by
  unfold process_multiple_directories scanResults
  rw [if_neg hne]
  by_cases hd : (find_duplicates
      ((files.filterMap (fun file_info =>
        (process_single_file_with_cache hb fs file_info
          (load_existing_file_cache s.files)).1)).map some)).isEmpty
  · rw [if_pos hd, if_pos hd]
  · rw [if_neg hd, if_neg hd]

/-- C5: running the pipeline a second time over the same file list with
an unchanged filesystem yields the same collected records, the same
persisted file rows and the same persisted duplicate rows as the first
run, and in the second run every file that yields a record is served
from the cache — `calculate_sha256` is not invoked for it. -/
theorem pipeline_idempotent (hb : List Nat → String) (fs : FSModel)
    (files : List (String × String)) (s : StorageState) :
    (process_multiple_directories hb fs files
        (process_multiple_directories hb fs files s).1).2
      = (process_multiple_directories hb fs files s).2 ∧
    (process_multiple_directories hb fs files
        (process_multiple_directories hb fs files s).1).1.files
      = (process_multiple_directories hb fs files s).1.files ∧
    (process_multiple_directories hb fs files
        (process_multiple_directories hb fs files s).1).1.duplicates
      = (process_multiple_directories hb fs files s).1.duplicates ∧
    ∀ fi ∈ files, ∀ rec,
      (process_single_file_with_cache hb fs fi
        (load_existing_file_cache
          (process_multiple_directories hb fs files s).1.files)).1
        = some rec →
      (process_single_file_with_cache hb fs fi
        (load_existing_file_cache
          (process_multiple_directories hb fs files s).1.files)).2
        = false := by
  by_cases hf : files.length = 0
  · have hempty : files = [] := List.length_eq_zero.mp hf
    subst hempty
    rw [pd_empty hb fs [] s rfl]
    rw [pd_empty hb fs [] (s, ([] : List FileRecord)).1 rfl]
    exact ⟨rfl, rfl, rfl, fun fi hfi => absurd hfi (List.not_mem_nil fi)⟩
  · have hres2 : scanResults hb fs files
        (load_existing_file_cache
          (process_multiple_directories hb fs files s).1.files)
        = scanResults hb fs files (load_existing_file_cache s.files) := by
      rw [pd_files hb fs files s hf]
      unfold scanResults
      exact filterMap_congr_mem _ _ files
        (fun fi hfi => (run2_per_path hb fs files s fi hfi).1)
    refine ⟨?_, ?_, ?_, ?_⟩
    · rw [pd_results hb fs files
        ((process_multiple_directories hb fs files s).1) hf, hres2,
        pd_results hb fs files s hf]
    · rw [pd_files hb fs files
        ((process_multiple_directories hb fs files s).1) hf, hres2,
        pd_files hb fs files s hf]
    · rw [pd_dups hb fs files
        ((process_multiple_directories hb fs files s).1) hf, hres2]
      by_cases hd : (find_duplicates
          ((scanResults hb fs files
            (load_existing_file_cache s.files)).map some)).isEmpty
      · rw [if_pos hd]
      · rw [if_neg hd, pd_dups hb fs files s hf, if_neg hd]
    · intro fi hfi rec hrec
      rw [pd_files hb fs files s hf] at hrec ⊢
      exact (run2_per_path hb fs files s fi hfi).2 rec hrec

/-- Concrete file list for the idempotence witness. -/
def filesW : List (String × String) :=
  [("/t/a", "/t"), ("/t/b", "/t"), ("/t/c", "/t")]

/-- Witness for C5 at concrete inputs: the second run collects the same
records, and `/t/a` (which yields a record in run 2) is served from the
cache without hashing. -/
theorem pipeline_idempotent_witness :
    (process_multiple_directories hbW fsW filesW
        (process_multiple_directories hbW fsW filesW sPrior).1).2
      = (process_multiple_directories hbW fsW filesW sPrior).2 ∧
    (process_single_file_with_cache hbW fsW ("/t/a", "/t")
        (load_existing_file_cache
          (process_multiple_directories hbW fsW filesW
            sPrior).1.files)).2
      = false :=
  ⟨(pipeline_idempotent hbW fsW filesW sPrior).1,
   (pipeline_idempotent hbW fsW filesW sPrior).2.2.2 ("/t/a", "/t")
     (by decide) ⟨"a", "/t/a", "t", 3, some "1-2-3"⟩ (by decide)⟩
